import Mathlib

/-!
Verification of the FADE `MetaRunner.py` module (continual-training scheduler,
online trainer divergence handling, recommendation-list generation and the
fairness evaluation engine) against its natural-language specification.

The Python source is shallowly embedded: pure helper functions become Lean
functions on `List ℕ` / `ℚ` / `ℝ`; numpy float arrays whose only inspected
property is NaN-ness become lists over an explicit float-value type; code that
can raise (`random.sample`, the metric-name dispatch, division by a zero user
count) returns `Except`/`Option`; external collaborators (the torch model, the
random number generator, file I/O) are parameters of the embedded functions.
-/

namespace Fade

/-! ### Numpy float values and divergence detection (`fit_offline`, `train`)

`train_recommender_vanilla` returns a raw prediction array; the only numeric
property the runner inspects is `np.isnan(prediction).any()`.  We model an
array entry as either a finite rational, NaN, or a signed infinity. -/

/-- A numpy floating point value as far as the runner observes it:
finite, NaN, or an infinity. -/
inductive NpFloat where
  | val : ℚ → NpFloat
  | nan : NpFloat
  | inf : NpFloat
  | ninf : NpFloat
deriving DecidableEq

/-- Embedding of `np.isnan` on one entry. -/
def npIsnan : NpFloat → Bool
  | .nan => true
  | _ => false

/-- Embedding of `np.isfinite` on one entry (NaN and the infinities are not finite). -/
def npIsfinite : NpFloat → Bool
  | .val _ => true
  | _ => false

/-- Embedding of `np.isnan(prediction).any()` (MetaRunner.py line 404 / 505). -/
def isnan_any (prediction : List NpFloat) : Bool :=
  prediction.any npIsnan

/-- One pass of `fit_offline` over the stream of training steps (MetaRunner.py
lines 389-408), abstracted over the model: `pred i` is the raw prediction the
model returns at step `i`.  The loop recomputes `flag = np.isnan(...).any()`
at every step and breaks as soon as it is set.  Returns the final flag and the
number of steps executed. -/
def fit_offline_loop (pred : ℕ → List NpFloat) : List ℕ → Bool × ℕ
  | [] => (false, 0)
  | i :: rest =>
    if isnan_any (pred i) then (true, 1)
    else ((fit_offline_loop pred rest).1, (fit_offline_loop pred rest).2 + 1)

/-- `fit_offline` on a dataset of `n` steps: returns the divergence flag and
the number of steps executed before the pass ended. -/
def fit_offline (pred : ℕ → List NpFloat) (n : ℕ) : Bool × ℕ :=
  fit_offline_loop pred (List.range n)

/-- The PRETRAIN epoch loop of `train` (MetaRunner.py lines 222-242),
abstracted over the model: `epochPred e i` is the prediction at step `i` of
epoch `e`.  Each epoch runs `fit_offline`; if the returned flag is set the
loop logs "NaN loss, stop training" and breaks.  Returns the number of
epochs executed. -/
def train_pretrain_loop (epochPred : ℕ → ℕ → List NpFloat) (n : ℕ) : List ℕ → ℕ
  | [] => 0
  | e :: rest =>
    if (fit_offline (epochPred e) n).1 then 1
    else 1 + train_pretrain_loop epochPred n rest

/-- Number of PRETRAIN passes executed out of `epochs` configured ones. -/
def train_pretrain_epochs (epochPred : ℕ → ℕ → List NpFloat) (n epochs : ℕ) : ℕ :=
  train_pretrain_loop epochPred n (List.range epochs)

/-! ### The fine-tuning scheduler (`dynamic_prediction`)

`dynamic_prediction` (MetaRunner.py lines 412-542) slices the interaction
stream into snapshots using `snap_boundaries`, extracts a numeric threshold
from the mode string, skips snapshot 0, fine-tunes each later snapshot whose
index exceeds the threshold for `tepoch` passes, and saves a checkpoint
`_snap{i}` unless the mode is `modi-fine<N>` and `i ≤ N`. -/

/-- Value of a digit character. -/
def charDigitVal (c : Char) : ℕ := c.toNat - '0'.toNat

/-- Natural number denoted by a list of digit characters (most significant first). -/
def digitsToNat (ds : List Char) : ℕ :=
  ds.foldl (fun n c => 10 * n + charDigitVal c) 0

/-- Embedding of `snap_thres = re.sub('[^0-9]', '', args.dyn_method)` followed by
`snap_thres = -1 if '' else int(snap_thres)` (lines 463-467): keep the digit
characters of the mode string in order; an empty result means `-1`. -/
def extract_digits (s : String) : ℤ :=
  let ds := s.data.filter Char.isDigit
  if ds.isEmpty then -1 else (digitsToNat ds : ℤ)

/-- Substring test on character lists, used to embed Python's `in` on strings. -/
def hasSub (pat : List Char) : List Char → Bool
  | [] => pat.isEmpty
  | c :: rest => (List.take pat.length (c :: rest) == pat) || hasSub pat rest

/-- Embedding of Python `pat in s` for strings. -/
def strContains (s pat : String) : Bool :=
  hasSub pat.data s.data

/-- Start offset of snapshot `k` (lines 424-431): `-100` for snapshot 0,
else `snap_boundaries[k-1]`. -/
def snap_start (bs : List ℤ) (k : ℕ) : ℤ :=
  if k = 0 then -100 else bs.getD (k - 1) 0

/-- End offset of snapshot `k`: `snap_boundaries[k]`. -/
def snap_end (bs : List ℤ) (k : ℕ) : ℤ :=
  bs.getD k 0

/-- Whether stream index `i` is collected into snapshot `k`'s batch list
(lines 444-455: `continue` while `i < start`, `break` once `i >= end`). -/
def snapshot_covers (bs : List ℤ) (k : ℕ) (i : ℤ) : Bool :=
  snap_start bs k ≤ i && i < snap_end bs k

/-- Whether the fine-tuning branch runs for snapshot `snapIdx`
(lines 478-485): snapshot 0 is skipped, and the `tepoch` training passes run
exactly when `snap_idx > snap_thres`. -/
def isFineTuned (method : String) (snapIdx : ℕ) : Bool :=
  snapIdx ≠ 0 && extract_digits method < (snapIdx : ℤ)

/-- Number of fine-tuning passes `dynamic_prediction` performs over snapshot
`snapIdx`'s examples (absent divergence): `tepoch` when the fine-tuning branch
is taken, otherwise none (lines 478-516). -/
def fine_tune_passes (method : String) (tepoch : ℕ) (snapIdx : ℕ) : ℕ :=
  if isFineTuned method snapIdx then tepoch else 0

/-- Whether `dynamic_prediction` saves checkpoint `_snap{snapIdx}`
(lines 478-533): snapshot 0 is skipped entirely; otherwise the save is skipped
only when the mode contains `modi-fine` and `snap_idx ≤ snap_thres`. -/
def savesCheckpoint (method : String) (snapIdx : ℕ) : Bool :=
  snapIdx ≠ 0 && !(strContains method "modi-fine" && (snapIdx : ℤ) ≤ extract_digits method)

/-- The checkpoint tags `dynamic_prediction` persists, in order. -/
def checkpointTags (bs : List ℤ) (method : String) : List String :=
  ((List.range bs.length).filter (fun i => savesCheckpoint method i)).map
    (fun i => "_snap" ++ toString i)

/-- The snapshot indices whose fine-tuning branch runs, in loop order. -/
def fineTunedSnapshots (bs : List ℤ) (method : String) : List ℕ :=
  (List.range bs.length).filter (fun i => isFineTuned method i)

/-! ### Recommendation-list generation (`generate_recommendation_list_for_a_user`)

MetaRunner.py lines 1002-1056.  The torch model enters only through its
relevance scores (`model.get_relevances`), embedded as a function
`relevance : ℕ → ℚ`; the random number generator enters only through
`random.sample`, embedded as a function `sample : List ℕ → ℕ → List ℕ` giving
the drawn sample (its error case, a request larger than the population or
negative, is part of the embedding).  Python's `dict` keyed by item keeps the
first insertion position of each key, so building the `relevances` dict
deduplicates the candidate list keeping first occurrences; Python's `sorted`
is stable, which is equivalent to sorting the indexed list by
(score descending, original position ascending). -/

/-- First-occurrence deduplication with an accumulator of already-seen keys:
how a Python dict built by repeated assignment orders its keys. -/
def pyDedupAux (seen : List ℕ) : List ℕ → List ℕ
  | [] => []
  | x :: xs => if x ∈ seen then pyDedupAux seen xs else x :: pyDedupAux (x :: seen) xs

/-- First-occurrence deduplication, the key order of a Python dict built by
repeated assignment. -/
def pyDedup (l : List ℕ) : List ℕ :=
  pyDedupAux [] l

/-- Embedding of `list(set(train_item_set) - set(train_pos[user]) - set(test_pos[user]))`:
the eligible negative items (Python's set iteration order is unspecified; we
keep first occurrences in `train_item_set` order). -/
def new_item_set_of (trainItemSet trainPos_u testPos_u : List ℕ) : List ℕ :=
  pyDedup (trainItemSet.filter (fun i => ¬ i ∈ trainPos_u ∧ ¬ i ∈ testPos_u))

/-- The negative samples: `random.sample(new_item_set, num_neg_samples)` when a
sample size is requested, else the whole eligible set (lines 1011-1019). -/
def neg_samples_of (sample : List ℕ → ℕ → List ℕ)
    (trainItemSet trainPos_u testPos_u : List ℕ) (numNegSamples : ℤ) : List ℕ :=
  if numNegSamples ≠ -1 then
    sample (new_item_set_of trainItemSet trainPos_u testPos_u) numNegSamples.toNat
  else new_item_set_of trainItemSet trainPos_u testPos_u

/-- `candidate_items = test_pos[user] + neg_samples` (line 1027). -/
def candidate_items_of (sample : List ℕ → ℕ → List ℕ)
    (trainItemSet trainPos_u testPos_u : List ℕ) (numNegSamples : ℤ) : List ℕ :=
  testPos_u ++ neg_samples_of sample trainItemSet trainPos_u testPos_u numNegSamples

/-- The count `cnt` of candidate occurrences outside the training item
vocabulary (lines 1037-1043). -/
def unseen_count_of (sample : List ℕ → ℕ → List ℕ)
    (trainItemSet trainPos_u testPos_u : List ℕ) (numNegSamples : ℤ) : ℕ :=
  ((candidate_items_of sample trainItemSet trainPos_u testPos_u numNegSamples).filter
    (fun i => ¬ i ∈ trainItemSet)).length

/-- Ordering used by `sorted(relevances.items(), key=lambda x: x[1], reverse=True)`
on (original position, item) pairs: score strictly greater first, ties broken
by the original position (Python's sort is stable). -/
def scoreRel (relevance : ℕ → ℚ) (a b : ℕ × ℕ) : Prop :=
  relevance b.2 < relevance a.2 ∨ (relevance a.2 = relevance b.2 ∧ a.1 ≤ b.1)

instance scoreRelDecidable (relevance : ℕ → ℚ) : DecidableRel (scoreRel relevance) :=
  fun _ _ => by unfold scoreRel; infer_instance

instance scoreRelTotal (relevance : ℕ → ℚ) : IsTotal (ℕ × ℕ) (scoreRel relevance) where
  total a b := by
    rcases lt_trichotomy (relevance a.2) (relevance b.2) with h | h | h
    · exact Or.inr (Or.inl h)
    · rcases Nat.le_total a.1 b.1 with h' | h'
      · exact Or.inl (Or.inr ⟨h, h'⟩)
      · exact Or.inr (Or.inr ⟨h.symm, h'⟩)
    · exact Or.inl (Or.inl h)

instance scoreRelTrans (relevance : ℕ → ℚ) : IsTrans (ℕ × ℕ) (scoreRel relevance) where
  trans a b c hab hbc := by
    rcases hab with h1 | ⟨h1, h1'⟩ <;> rcases hbc with h2 | ⟨h2, h2'⟩
    · exact Or.inl (h2.trans h1)
    · exact Or.inl (h2 ▸ h1)
    · exact Or.inl (h1 ▸ h2)
    · exact Or.inr ⟨h1.trans h2, h1'.trans h2'⟩

/-- Embedding of Python's stable descending sort of the `relevances` dict items:
index the keys by original position, sort by (score descending, position
ascending), and strip the positions. -/
def pySortedDesc (relevance : ℕ → ℚ) (l : List ℕ) : List ℕ :=
  (List.insertionSort (scoreRel relevance) l.enum).map Prod.snd

/-- The full ranked candidate list (the `sorted_relevances` keys, line 1045). -/
def ranked_candidates_of (relevance : ℕ → ℚ) (sample : List ℕ → ℕ → List ℕ)
    (trainItemSet trainPos_u testPos_u : List ℕ) (numNegSamples : ℤ) : List ℕ :=
  pySortedDesc relevance
    (pyDedup (candidate_items_of sample trainItemSet trainPos_u testPos_u numNegSamples))

/-- The recommendation list: truncated to `K` when `K > 0`, else the full
ranked candidate list (lines 1047-1050). -/
def recommendation_list_of (relevance : ℕ → ℚ) (sample : List ℕ → ℕ → List ℕ)
    (trainItemSet trainPos_u testPos_u : List ℕ) (K numNegSamples : ℤ) : List ℕ :=
  if 0 < K then
    (ranked_candidates_of relevance sample trainItemSet trainPos_u testPos_u numNegSamples).take
      K.toNat
  else ranked_candidates_of relevance sample trainItemSet trainPos_u testPos_u numNegSamples

/-- Embedding of `generate_recommendation_list_for_a_user` (lines 1002-1056):
fails (the `ValueError` of `random.sample`) exactly when a sample is requested
whose size exceeds the eligible pool or is negative; otherwise returns the
recommendation list and the unseen-candidate count. -/
def generate_recommendation_list_for_a_user (relevance : ℕ → ℚ)
    (sample : List ℕ → ℕ → List ℕ)
    (trainItemSet trainPos_u testPos_u : List ℕ) (K numNegSamples : ℤ) :
    Except String (List ℕ × ℕ) :=
  if numNegSamples ≠ -1 ∧
      (((new_item_set_of trainItemSet trainPos_u testPos_u).length : ℤ) < numNegSamples ∨
        numNegSamples < 0) then
    .error "Sample larger than population or is negative"
  else
    .ok (recommendation_list_of relevance sample trainItemSet trainPos_u testPos_u K numNegSamples,
      unseen_count_of sample trainItemSet trainPos_u testPos_u numNegSamples)

/-! ### Per-user ranking metrics (`Tester.measure_*`)

MetaRunner.py lines 1410-1504.  All metric values are real numbers; the
NDCG family divides by `log2`, embedded with `Real.logb 2`. -/

/-- Embedding of `np.isin(rec_list, test_pos)`: elementwise membership. -/
def isin (recList testPos : List ℕ) : List Bool :=
  recList.map (fun x => decide (x ∈ testPos))

/-- Embedding of `np.isin(rec_list, test_pos).sum()`. -/
def hit_count (recList testPos : List ℕ) : ℕ :=
  (isin recList testPos).count true

/-- Embedding of `measure_recall` (lines 1410-1413). -/
noncomputable def measure_recall (recList testPos : List ℕ) : ℝ :=
  (hit_count recList testPos : ℝ) / (testPos.length : ℝ)

/-- Embedding of `measure_num_hit` (lines 1415-1416). -/
def measure_num_hit (recList testPos : List ℕ) : ℕ :=
  hit_count recList testPos

/-- Embedding of `measure_precision` (lines 1457-1460). -/
noncomputable def measure_precision (recList testPos : List ℕ) : ℝ :=
  (hit_count recList testPos : ℝ) / (recList.length : ℝ)

/-- Embedding of `measure_hit_ratio` (lines 1449-1455). -/
def measure_hit_ratio (recList testPos : List ℕ) : ℝ :=
  if 0 < hit_count recList testPos then 1 else 0

/-- Embedding of `measure_f1` (lines 1477-1485). -/
noncomputable def measure_f1 (recList testPos : List ℕ) : ℝ :=
  let rcl := measure_recall recList testPos
  let prc := measure_precision recList testPos
  if rcl + prc = 0 then 0 else 2 * (rcl * prc) / (rcl + prc)

/-- Embedding of `measure_mrr` (lines 1487-1504): method 0 sums the reciprocal
ranks of all hits, method 1 takes the first hit's reciprocal rank (0 if none). -/
noncomputable def measure_mrr (recList testPos : List ℕ) (method : ℕ) : ℝ :=
  let r := isin recList testPos
  if method = 0 then
    ∑ i in Finset.range r.length, (if r.getD i false then (1 : ℝ) else 0) / ((i : ℝ) + 1)
  else
    match r.findIdx? (fun b => b) with
    | some k => 1 / ((k : ℝ) + 1)
    | none => 0

/-- Embedding of `measure_average_precision` (lines 1462-1474). -/
noncomputable def measure_average_precision (recList testPos : List ℕ) (method : ℕ) : ℝ :=
  let r := isin recList testPos
  let out := ((List.range recList.length).filter (fun k => r.getD k false)).map
    (fun k => measure_precision (recList.take (k + 1)) testPos)
  if out = [] then 0
  else if method = 0 then out.sum / (out.length : ℝ)
  else if method = 1 then out.sum / (min recList.length testPos.length : ℝ)
  else out.sum / (testPos.length : ℝ)

/-- DCG under convention "method 1": position `i` (0-based) weighted
`1 / log2(i + 2)`, i.e. `np.sum(r / np.log2(np.arange(2, r.size + 2)))`. -/
noncomputable def dcg_method1 (r : List Bool) : ℝ :=
  ∑ i in Finset.range r.length, (if r.getD i false then (1 : ℝ) else 0) / Real.logb 2 ((i : ℝ) + 2)

/-- DCG under convention "method 0": `r[0] + np.sum(r[1:] / np.log2(np.arange(2, r.size + 1)))`
(on the empty array numpy would raise an IndexError on `r[0]`; the dispatcher
only uses methods 1 and 2). -/
noncomputable def dcg_method0 (r : List Bool) : ℝ :=
  (if r.getD 0 false then (1 : ℝ) else 0) +
    ∑ i in Finset.range (r.length - 1),
      (if r.getD (i + 1) false then (1 : ℝ) else 0) / Real.logb 2 ((i : ℝ) + 2)

/-- Embedding of `sorted(np.isin(rec_list, test_pos), reverse=True)`. -/
def sortDescBool (r : List Bool) : List Bool :=
  List.insertionSort (fun a b : Bool => b ≤ a) r

/-- Embedding of `measure_ndcg` (lines 1426-1447): the hit vector's DCG
normalized by the sorted (ideal) vector's DCG, 0 when the latter is 0;
method 2 returns the raw DCG. -/
noncomputable def measure_ndcg (recList testPos : List ℕ) (method : ℕ) : ℝ :=
  let r := isin recList testPos
  let maxr := sortDescBool r
  if method = 2 then dcg_method1 r
  else
    let dcg := if method = 0 then dcg_method0 r else dcg_method1 r
    let idcg := if method = 0 then dcg_method0 maxr else dcg_method1 maxr
    if idcg = 0 then 0 else dcg / idcg

/-- Embedding of `measure_ndcg_deprecated` (lines 1418-1424), the `ndcg0`
variant. -/
noncomputable def measure_ndcg_deprecated (recList testPos : List ℕ) : ℝ :=
  let k := min recList.length testPos.length
  let idcg := ∑ i in Finset.range k, 1 / Real.logb 2 ((i : ℝ) + 2)
  let dcg := ∑ i in Finset.range recList.length,
    if (isin recList testPos).getD i false then 1 / Real.logb 2 ((i : ℝ) + 2) else 0
  dcg / idcg

/-! ### The per-metric dispatch (`measure_performance_for_a_user`, lines 1084-1119) -/

/-- The metric names the `elif` chain of `measure_performance_for_a_user`
recognizes, in source order. -/
def knownMetrics : List String :=
  ["recall", "ndcg1", "ndcg0", "mrr0", "mrr1", "ap0", "ap1", "ap2",
    "hit_ratio", "precision", "f1", "ndcg2", "hit"]

/-- Embedding of the metric-name dispatch of `measure_performance_for_a_user`:
the value computed for one metric on one user, or the `ValueError`
("Undefined evaluation metric") for an unrecognized name. -/
noncomputable def metricValue (metric : String) (recList testPos_u : List ℕ) :
    Except String ℝ :=
  if metric = "recall" then .ok (measure_recall recList testPos_u)
  else if metric = "ndcg1" then .ok (measure_ndcg recList testPos_u 1)
  else if metric = "ndcg0" then .ok (measure_ndcg_deprecated recList testPos_u)
  else if metric = "mrr0" then .ok (measure_mrr recList testPos_u 0)
  else if metric = "mrr1" then .ok (measure_mrr recList testPos_u 1)
  else if metric = "ap0" then .ok (measure_average_precision recList testPos_u 0)
  else if metric = "ap1" then .ok (measure_average_precision recList testPos_u 1)
  else if metric = "ap2" then .ok (measure_average_precision recList testPos_u 2)
  else if metric = "hit_ratio" then .ok ( measure_hit_ratio recList testPos_u)
  else if metric = "precision" then .ok (measure_precision recList testPos_u)
  else if metric = "f1" then .ok (measure_f1 recList testPos_u)
  else if metric = "ndcg2" then .ok (measure_ndcg recList testPos_u 2)
  else if metric = "hit" then .ok ((measure_num_hit recList testPos_u : ℝ))
  else .error ("Undefined evaluation metric: " ++ metric)

/-- Value of a successful `Except` computation, with a default for the error case. -/
def exceptD {ε α : Type} (d : α) : Except ε α → α
  | .ok a => a
  | .error _ => d

/-- Whether an `Except` computation failed. -/
def exceptIsError {ε α : Type} : Except ε α → Bool
  | .ok _ => false
  | .error _ => true

/-! ### The evaluation accumulators (`Tester.init_results` and the user loop)

`quick_recommendation` (lines 599-633) iterates the training users, skips
users absent from the test-positive map, and for each remaining user calls
`measure_performance_for_a_user`, which mutates the running accumulators.
The recommendation list and unseen count for each user are parameters
(`recOf`), as they come from the model and the random sampler. -/

/-- The mutable accumulators of `Tester` touched by one evaluation pass
(created by `init_results`, lines 969-999): overall per-metric totals, the
overall evaluated-user count, per-(dimension, group, metric) totals, and the
per-(dimension, group) auxiliary counters. -/
structure TState where
  results : String → ℝ
  numTestUsers : ℕ
  resultsUserAttr : ℕ → ℕ → String → ℝ
  numUsersPerGroup : ℕ → ℕ → ℕ
  numUnseenItemsPerGroup : ℕ → ℕ → ℕ
  numTestPosPerGroup : ℕ → ℕ → ℕ
  numTrainPosPerGroup : ℕ → ℕ → ℕ

/-- The zero-initialized accumulators of `init_results`. -/
def init_results : TState :=
  ⟨fun _ => 0, 0, fun _ _ _ => 0, fun _ _ => 0, fun _ _ => 0, fun _ _ => 0, fun _ _ => 0⟩

/-- One metric's accumulator update inside `measure_performance_for_a_user`
(lines 1121-1136): add the value to the overall and matching-group buckets;
on the user's first metric (`flag == 0`) also bump the user counters and the
per-group auxiliary totals. -/
def perfUpdate (G : List (List ℕ)) (userAttr : ℕ → ℕ → ℕ) (trainPosLen tpLen : ℕ)
    (user : ℕ) (numUnseen : ℕ) (m : String) (v : ℝ) (flag : ℕ) (st : TState) : TState where
  results := fun m' => if m' = m then st.results m' + v else st.results m'
  numTestUsers := if flag = 0 then st.numTestUsers + 1 else st.numTestUsers
  resultsUserAttr := fun k a m' =>
    if k < G.length ∧ a ∈ G.getD k [] ∧ userAttr user k = a ∧ m' = m then
      st.resultsUserAttr k a m' + v
    else st.resultsUserAttr k a m'
  numUsersPerGroup := fun k a =>
    if flag = 0 ∧ k < G.length ∧ a ∈ G.getD k [] ∧ userAttr user k = a then
      st.numUsersPerGroup k a + 1
    else st.numUsersPerGroup k a
  numUnseenItemsPerGroup := fun k a =>
    if flag = 0 ∧ k < G.length ∧ a ∈ G.getD k [] ∧ userAttr user k = a then
      st.numUnseenItemsPerGroup k a + numUnseen
    else st.numUnseenItemsPerGroup k a
  numTestPosPerGroup := fun k a =>
    if flag = 0 ∧ k < G.length ∧ a ∈ G.getD k [] ∧ userAttr user k = a then
      st.numTestPosPerGroup k a + tpLen
    else st.numTestPosPerGroup k a
  numTrainPosPerGroup := fun k a =>
    if flag = 0 ∧ k < G.length ∧ a ∈ G.getD k [] ∧ userAttr user k = a then
      st.numTrainPosPerGroup k a + trainPosLen
    else st.numTrainPosPerGroup k a

/-- The metric loop of `measure_performance_for_a_user` (lines 1081-1140),
carrying the `flag` counter.  An unrecognized metric name raises, carrying the
accumulator state at the moment of the raise (`self` keeps its mutations).
When the user is missing from the test-positive map the body only logs an
error line. -/
noncomputable def measure_performance_loop (G : List (List ℕ)) (userAttr : ℕ → ℕ → ℕ)
    (trainPos : ℕ → List ℕ) (testPos : ℕ → Option (List ℕ)) (user : ℕ)
    (recList : List ℕ) (numUnseen : ℕ) :
    List String → ℕ → TState → Except (String × TState) TState
  | [], _, st => .ok st
  | m :: ms, flag, st =>
    match testPos user with
    | some tp =>
      match metricValue m recList tp with
      | .error e => .error (e, st)
      | .ok v =>
        measure_performance_loop G userAttr trainPos testPos user recList numUnseen ms
          (flag + 1)
          (perfUpdate G userAttr (trainPos user).length tp.length user numUnseen m v flag st)
    | none => measure_performance_loop G userAttr trainPos testPos user recList numUnseen ms flag st

/-- Embedding of `measure_performance_for_a_user`. -/
noncomputable def measure_performance_for_a_user (G : List (List ℕ)) (userAttr : ℕ → ℕ → ℕ)
    (trainPos : ℕ → List ℕ) (testPos : ℕ → Option (List ℕ)) (user : ℕ)
    (recList : List ℕ) (numUnseen : ℕ) (metrics : List String) (st : TState) :
    Except (String × TState) TState :=
  measure_performance_loop G userAttr trainPos testPos user recList numUnseen metrics 0 st

/-- The user loop of `quick_recommendation` (lines 619-623): iterate the
training users, skipping those absent from the test-positive map;
`recOf u` is the recommendation list and unseen count produced for user `u`. -/
noncomputable def quick_rec_loop (G : List (List ℕ)) (userAttr : ℕ → ℕ → ℕ)
    (trainPos : ℕ → List ℕ) (testPos : ℕ → Option (List ℕ)) (metrics : List String)
    (recOf : ℕ → List ℕ × ℕ) :
    List ℕ → TState → Except (String × TState) TState
  | [], st => .ok st
  | u :: us, st =>
    if (testPos u).isSome then
      match measure_performance_for_a_user G userAttr trainPos testPos u (recOf u).1 (recOf u).2
          metrics st with
      | .error e => .error e
      | .ok st' => quick_rec_loop G userAttr trainPos testPos metrics recOf us st'
    else quick_rec_loop G userAttr trainPos testPos metrics recOf us st

/-- Embedding of `average_user` (lines 1406-1408): divide every overall metric
total by the overall evaluated-user count.  With at least one metric key and a
zero count, Python's division raises `ZeroDivisionError`, embedded as `none`. -/
noncomputable def average_user (metrics : List String) (results : String → ℝ)
    (numTestUsers : ℕ) : Option (String → ℝ) :=
  if metrics = [] then some results
  else if numTestUsers = 0 then none
  else some (fun m => if m ∈ metrics then results m / (numTestUsers : ℝ) else results m)

/-- The reported overall value of a metric after `average_user`, reading 0
out of the error case. -/
noncomputable def avgAt (o : Option (String → ℝ)) (m : String) : ℝ :=
  match o with
  | some g => g m
  | none => 0

/-- Embedding of `average_user_attr` (lines 1392-1404): each group bucket is
divided by that group's own user count, and explicitly set to 0 when the
group's user count is 0. -/
noncomputable def average_user_attr (G : List (List ℕ)) (metrics : List String)
    (resultsUserAttr : ℕ → ℕ → String → ℝ) (numUsersPerGroup : ℕ → ℕ → ℕ) :
    ℕ → ℕ → String → ℝ :=
  fun k a m =>
    if k < G.length ∧ a ∈ G.getD k [] ∧ m ∈ metrics then
      if numUsersPerGroup k a = 0 then 0
      else resultsUserAttr k a m / (numUsersPerGroup k a : ℝ)
    else resultsUserAttr k a m

/-- Embedding of the parity-difference part of `measure_unfairness`
(lines 1340-1354): for attribute dimension `k`, the per-group values of a
metric in group order; `binary_unfairness[metric][k] = value_list[0] - value_list[1]`
is recorded exactly when that list has exactly two entries (the dict holds no
key `k` otherwise, embedded as `none`).  The `np.var` population statistic the
method also stores is not consumed anywhere and is not modeled. -/
noncomputable def binary_unfairness (G : List (List ℕ))
    (resultsUserAttr : ℕ → ℕ → String → ℝ) (m : String) (k : ℕ) : Option ℝ :=
  let valueList := (G.getD k []).map (fun a => resultsUserAttr k a m)
  if valueList.length = 2 then some (valueList.getD 0 0 - valueList.getD 1 0) else none

/-! ### Recommendation-list invariants (claim C9 machinery) -/

theorem mem_pyDedupAux (y : ℕ) :
    ∀ (l seen : List ℕ), y ∈ pyDedupAux seen l ↔ y ∈ l ∧ y ∉ seen
  | [], seen => by simp [pyDedupAux]
  | x :: xs, seen => by
    by_cases hx : x ∈ seen
    · rw [pyDedupAux, if_pos hx, mem_pyDedupAux y xs seen]
      constructor
      · exact fun ⟨h1, h2⟩ => ⟨List.mem_cons_of_mem x h1, h2⟩
      · rintro ⟨h1, h2⟩
        rcases List.mem_cons.mp h1 with rfl | h1'
        · exact absurd hx h2
        · exact ⟨h1', h2⟩
    · rw [pyDedupAux, if_neg hx, List.mem_cons, mem_pyDedupAux y xs (x :: seen)]
      simp only [List.mem_cons]
      by_cases hyx : y = x
      · subst hyx
        tauto
      · tauto

theorem nodup_pyDedupAux : ∀ (l seen : List ℕ), (pyDedupAux seen l).Nodup
  | [], seen => by simp [pyDedupAux]
  | x :: xs, seen => by
    by_cases hx : x ∈ seen
    · rw [pyDedupAux, if_pos hx]
      exact nodup_pyDedupAux xs seen
    · rw [pyDedupAux, if_neg hx]
      refine List.Nodup.cons ?_ (nodup_pyDedupAux xs (x :: seen))
      intro hc
      exact ((mem_pyDedupAux x xs (x :: seen)).mp hc).2 (List.mem_cons_self x seen)

theorem pyDedup_nodup (l : List ℕ) : (pyDedup l).Nodup :=
  nodup_pyDedupAux l []

theorem enum_nodup (l : List ℕ) : l.enum.Nodup := by
  apply List.Nodup.of_map Prod.fst
  rw [List.enum_map_fst]
  exact List.nodup_range _

theorem pySortedDesc_perm (relevance : ℕ → ℚ) (l : List ℕ) :
    (pySortedDesc relevance l).Perm l := by
  rw [pySortedDesc]
  have h1 : (List.insertionSort (scoreRel relevance) l.enum).Perm l.enum :=
    List.perm_insertionSort _ _
  have h2 := h1.map Prod.snd
  rwa [List.enum_map_snd] at h2

theorem pySortedDesc_nodup (relevance : ℕ → ℚ) (l : List ℕ) (h : l.Nodup) :
    (pySortedDesc relevance l).Nodup :=
  ((pySortedDesc_perm relevance l).nodup_iff).mpr h

/-- The order the spec demands of a recommendation list drawn from candidate
list `cands`: strictly greater relevance first, ties in original candidate
order. -/
def itemRel (relevance : ℕ → ℚ) (cands : List ℕ) (a b : ℕ) : Prop :=
  relevance b < relevance a ∨
    (relevance a = relevance b ∧ cands.indexOf a < cands.indexOf b)

theorem pySortedDesc_pairwise (relevance : ℕ → ℚ) (l : List ℕ) (hl : l.Nodup) :
    (pySortedDesc relevance l).Pairwise (itemRel relevance l) := by
  have hsorted : (List.insertionSort (scoreRel relevance) l.enum).Pairwise (scoreRel relevance) :=
    List.sorted_insertionSort (scoreRel relevance) l.enum
  have hnd : (List.insertionSort (scoreRel relevance) l.enum).Nodup :=
    ((List.perm_insertionSort (scoreRel relevance) l.enum).nodup_iff).mpr (enum_nodup l)
  have hne : (List.insertionSort (scoreRel relevance) l.enum).Pairwise (fun p q => p ≠ q) := hnd
  have hand := hsorted.and hne
  rw [pySortedDesc, List.pairwise_map]
  refine hand.imp_of_mem ?_
  intro p q hp hq ⟨hrel, hpq⟩
  have hp' : l[p.1]? = some p.2 := by
    have := (List.perm_insertionSort (scoreRel relevance) l.enum).subset hp
    exact List.mk_mem_enum_iff_getElem?.mp (by simpa using this)
  have hq' : l[q.1]? = some q.2 := by
    have := (List.perm_insertionSort (scoreRel relevance) l.enum).subset hq
    exact List.mk_mem_enum_iff_getElem?.mp (by simpa using this)
  obtain ⟨hplt, hpe⟩ := List.getElem?_eq_some.mp hp'
  obtain ⟨hqlt, hqe⟩ := List.getElem?_eq_some.mp hq'
  have hpidx : l.indexOf p.2 = p.1 := by rw [← hpe]; exact List.indexOf_getElem hl p.1 hplt
  have hqidx : l.indexOf q.2 = q.1 := by rw [← hqe]; exact List.indexOf_getElem hl q.1 hqlt
  rcases hrel with h | ⟨heq, hle⟩
  · exact Or.inl h
  · refine Or.inr ⟨heq, ?_⟩
    rw [hpidx, hqidx]
    rcases Nat.lt_or_ge p.1 q.1 with hlt | hge
    · exact hlt
    · exfalso
      have : p.1 = q.1 := by omega
      apply hpq
      have : p.2 = q.2 := by rw [← hpe, ← hqe]; congr 1
      exact Prod.ext (by omega) this

/-- C9: a successfully generated recommendation list has no duplicate items,
is ordered by descending relevance with ties in original candidate order
(Python's stable sort), has length at most `K` when `K > 0`, and is the full
ranked candidate list (a permutation of the deduplicated candidates) when `K`
is not positive. -/
theorem recommendation_list_invariants (relevance : ℕ → ℚ) (sample : List ℕ → ℕ → List ℕ)
    (trainItemSet trainPos_u testPos_u : List ℕ) (K numNegSamples : ℤ)
    (recList : List ℕ) (cnt : ℕ)
    (hres : generate_recommendation_list_for_a_user relevance sample trainItemSet trainPos_u
      testPos_u K numNegSamples = .ok (recList, cnt)) :
    recList.Nodup ∧
    recList.Pairwise (itemRel relevance
      (pyDedup (candidate_items_of sample trainItemSet trainPos_u testPos_u numNegSamples))) ∧
    (0 < K → (recList.length : ℤ) ≤ K) ∧
    (¬ 0 < K → recList.Perm
      (pyDedup (candidate_items_of sample trainItemSet trainPos_u testPos_u numNegSamples))) := by
  have hrec : recList =
      recommendation_list_of relevance sample trainItemSet trainPos_u testPos_u K
        numNegSamples := by
    unfold generate_recommendation_list_for_a_user at hres
    by_cases hcond : numNegSamples ≠ -1 ∧
        (((new_item_set_of trainItemSet trainPos_u testPos_u).length : ℤ) < numNegSamples ∨
          numNegSamples < 0)
    · rw [if_pos hcond] at hres
      exact absurd hres (by simp)
    · rw [if_neg hcond] at hres
      have h := Prod.ext_iff.mp (Except.ok.inj hres)
      exact h.1.symm
  set cands := pyDedup (candidate_items_of sample trainItemSet trainPos_u testPos_u numNegSamples)
    with hcands
  have hranked : ranked_candidates_of relevance sample trainItemSet trainPos_u testPos_u
      numNegSamples = pySortedDesc relevance cands := rfl
  have hcnodup : cands.Nodup := pyDedup_nodup _
  have hrankednodup : (pySortedDesc relevance cands).Nodup :=
    pySortedDesc_nodup relevance cands hcnodup
  have hrankedpw : (pySortedDesc relevance cands).Pairwise (itemRel relevance cands) :=
    pySortedDesc_pairwise relevance cands hcnodup
  refine ⟨?_, ?_, ?_, ?_⟩
  · rw [hrec, recommendation_list_of]
    by_cases hK : 0 < K
    · rw [if_pos hK, hranked]
      exact (List.take_sublist _ _).nodup hrankednodup
    · rw [if_neg hK, hranked]
      exact hrankednodup
  · rw [hrec, recommendation_list_of]
    by_cases hK : 0 < K
    · rw [if_pos hK, hranked]
      exact List.Pairwise.sublist (List.take_sublist _ _) hrankedpw
    · rw [if_neg hK, hranked]
      exact hrankedpw
  · intro hK
    rw [hrec, recommendation_list_of, if_pos hK]
    have h1 : (List.take K.toNat
        (ranked_candidates_of relevance sample trainItemSet trainPos_u testPos_u
          numNegSamples)).length ≤ K.toNat := by
      rw [List.length_take]
      omega
    have h2 : (K.toNat : ℤ) = K := Int.toNat_of_nonneg hK.le
    omega
  · intro hK
    rw [hrec, recommendation_list_of, if_neg hK, hranked]
    exact pySortedDesc_perm relevance cands

theorem recommendation_list_invariants_witness :
    generate_recommendation_list_for_a_user (fun i => -(i : ℚ)) (fun pool k => pool.take k)
      [1, 2, 3, 4] [1] [2] 2 2 = .ok ([2, 3], 0) ∧
    ([2, 3] : List ℕ).Nodup ∧
    (0 < (2 : ℤ) → ((([2, 3] : List ℕ).length : ℤ) ≤ 2)) :=
  ⟨by rfl,
    (recommendation_list_invariants (fun i => -(i : ℚ)) (fun pool k => pool.take k)
      [1, 2, 3, 4] [1] [2] 2 2 [2, 3] 0 (by rfl)).1,
    (recommendation_list_invariants (fun i => -(i : ℚ)) (fun pool k => pool.take k)
      [1, 2, 3, 4] [1] [2] 2 2 [2, 3] 0 (by rfl)).2.2.1⟩

/-! ### NDCG facts (claim C2 machinery)

The position weight of convention "method 1" is `1 / log2(i + 2)` at 0-based
position `i`; it is positive and antitone, so the DCG of any hit vector is at
most the DCG of the descending-sorted vector. -/

/-- The "method 1" weight of 0-based position `i`. -/
noncomputable def wreal (i : ℕ) : ℝ := 1 / Real.logb 2 ((i : ℝ) + 2)

/-- Recursive form of the "method 1" DCG of a hit vector starting at
position `start`. -/
noncomputable def hitSum (start : ℕ) : List Bool → ℝ
  | [] => 0
  | b :: rest => (if b then wreal start else 0) + hitSum (start + 1) rest

/-- Sum of the `k` weights starting at position `start` (the ideal DCG of a
vector with `k` hits, all at the front). -/
noncomputable def idealSum (start k : ℕ) : ℝ := ∑ j in Finset.range k, wreal (start + j)

theorem logb_two_pos (i : ℕ) : 0 < Real.logb 2 ((i : ℝ) + 2) := by
  apply Real.logb_pos one_lt_two
  have : (0 : ℝ) ≤ (i : ℝ) := Nat.cast_nonneg i
  linarith

theorem wreal_pos (i : ℕ) : 0 < wreal i :=
  one_div_pos.mpr (logb_two_pos i)

theorem wreal_antitone {i j : ℕ} (h : i ≤ j) : wreal j ≤ wreal i := by
  apply one_div_le_one_div_of_le (logb_two_pos i)
  apply Real.logb_le_logb_of_le one_lt_two
  · have : (0 : ℝ) ≤ (i : ℝ) := Nat.cast_nonneg i
    linarith
  · have : (i : ℝ) ≤ (j : ℝ) := Nat.cast_le.mpr h
    linarith

theorem hitSum_eq_sum :
    ∀ (r : List Bool) (start : ℕ), hitSum start r =
      ∑ i in Finset.range r.length,
        (if r.getD i false then (1 : ℝ) else 0) / Real.logb 2 ((i : ℝ) + (start : ℝ) + 2)
  | [], start => by simp [hitSum]
  | b :: rest, start => by
    rw [hitSum, List.length_cons, Finset.sum_range_succ', hitSum_eq_sum rest (start + 1)]
    have h0 : (if (b :: rest).getD 0 false then (1 : ℝ) else 0) /
        Real.logb 2 ((0 : ℕ) + (start : ℝ) + 2) = if b then wreal start else 0 := by
      cases b
      · simp
      · simp [wreal, List.getD_cons_zero]
    have hsucc : ∀ i : ℕ, (if (b :: rest).getD (i + 1) false then (1 : ℝ) else 0) /
        Real.logb 2 (((i + 1 : ℕ) : ℝ) + (start : ℝ) + 2) =
        (if rest.getD i false then (1 : ℝ) else 0) /
          Real.logb 2 ((i : ℝ) + ((start + 1 : ℕ) : ℝ) + 2) := by
      intro i
      rw [List.getD_cons_succ]
      push_cast
      ring_nf
    rw [Finset.sum_congr rfl (fun i _ => hsucc i)]
    push_cast at h0 ⊢
    rw [h0]
    ring

theorem dcg_method1_eq_hitSum (r : List Bool) : dcg_method1 r = hitSum 0 r := by
  rw [dcg_method1, hitSum_eq_sum]
  refine Finset.sum_congr rfl fun i _ => ?_
  norm_num

theorem hitSum_nonneg (r : List Bool) : ∀ start, 0 ≤ hitSum start r := by
  induction r with
  | nil => intro start; simp [hitSum]
  | cons b rest ih =>
    intro start
    have h1 : (0 : ℝ) ≤ if b then wreal start else 0 := by
      cases b
      · simp
      · simpa using (wreal_pos start).le
    have := ih (start + 1)
    rw [hitSum]
    linarith

theorem idealSum_succ (start k : ℕ) :
    idealSum start (k + 1) = wreal start + idealSum (start + 1) k := by
  rw [idealSum, idealSum, Finset.sum_range_succ']
  have : ∀ j : ℕ, wreal (start + (j + 1)) = wreal (start + 1 + j) := by
    intro j; congr 1; omega
  rw [Finset.sum_congr rfl (fun j _ => this j)]
  simp [add_comm]

theorem idealSum_nonneg (start k : ℕ) : 0 ≤ idealSum start k :=
  Finset.sum_nonneg fun j _ => (wreal_pos (start + j)).le

theorem idealSum_pos (start : ℕ) {k : ℕ} (hk : 0 < k) : 0 < idealSum start k := by
  obtain ⟨k', rfl⟩ : ∃ k', k = k' + 1 := ⟨k - 1, by omega⟩
  rw [idealSum_succ]
  have := idealSum_nonneg (start + 1) k'
  have := wreal_pos start
  linarith

theorem idealSum_start_mono (start k : ℕ) :
    idealSum (start + 1) k ≤ idealSum start k :=
  Finset.sum_le_sum fun j _ => wreal_antitone (by omega)

theorem hitSum_le_idealSum (r : List Bool) :
    ∀ start, hitSum start r ≤ idealSum start (r.count true) := by
  induction r with
  | nil => intro start; simp [hitSum, idealSum]
  | cons b rest ih =>
    intro start
    cases b
    · rw [hitSum, if_neg (by simp)]
      have h1 := ih (start + 1)
      have h2 := idealSum_start_mono start (rest.count true)
      have hc : (false :: rest).count true = rest.count true := by simp
      rw [hc]
      linarith
    · rw [hitSum, if_pos rfl]
      have hc : (true :: rest).count true = rest.count true + 1 := by simp
      rw [hc, idealSum_succ]
      have h1 := ih (start + 1)
      linarith

theorem hitSum_append (l1 l2 : List Bool) :
    ∀ start, hitSum start (l1 ++ l2) = hitSum start l1 + hitSum (start + l1.length) l2 := by
  induction l1 with
  | nil => intro start; simp [hitSum]
  | cons b rest ih =>
    intro start
    rw [List.cons_append, hitSum, hitSum, ih (start + 1), List.length_cons]
    have : start + 1 + rest.length = start + (rest.length + 1) := by omega
    rw [this]
    ring

theorem hitSum_replicate_true (k : ℕ) :
    ∀ start, hitSum start (List.replicate k true) = idealSum start k := by
  induction k with
  | zero => intro start; simp [hitSum, idealSum]
  | succ k ih =>
    intro start
    rw [List.replicate_succ, hitSum, if_pos rfl, ih (start + 1), idealSum_succ]

theorem hitSum_replicate_false (k : ℕ) :
    ∀ start, hitSum start (List.replicate k false) = 0 := by
  induction k with
  | zero => intro start; simp [hitSum]
  | succ k ih =>
    intro start
    rw [List.replicate_succ, hitSum, if_neg (by simp), ih (start + 1)]
    ring

theorem orderedInsert_false_replicate (c : ℕ) (tail : List Bool) :
    List.orderedInsert (fun a b : Bool => b ≤ a) false (List.replicate c true ++ tail) =
      List.replicate c true ++ List.orderedInsert (fun a b : Bool => b ≤ a) false tail := by
  induction c with
  | zero => simp
  | succ c ih =>
    rw [List.replicate_succ, List.cons_append, List.orderedInsert, if_neg (by simp),
      ih, List.cons_append]

theorem sortDescBool_eq (r : List Bool) :
    sortDescBool r =
      List.replicate (r.count true) true ++ List.replicate (r.count false) false := by
  induction r with
  | nil => simp [sortDescBool, List.insertionSort]
  | cons b rest ih =>
    rw [sortDescBool, List.insertionSort] at *
    cases b
    · rw [ih, orderedInsert_false_replicate]
      have : List.orderedInsert (fun a b : Bool => b ≤ a) false
          (List.replicate (rest.count false) false) =
          List.replicate (rest.count false + 1) false := by
        cases hc : rest.count false with
        | zero => simp
        | succ c =>
          rw [List.replicate_succ, List.orderedInsert, if_pos (by simp)]
          rfl
      rw [this]
      simp [List.count_cons]
    · rw [ih]
      have : List.orderedInsert (fun a b : Bool => b ≤ a) true
          (List.replicate (rest.count true) true ++ List.replicate (rest.count false) false) =
          true :: (List.replicate (rest.count true) true ++
            List.replicate (rest.count false) false) := by
        cases h : List.replicate (rest.count true) true ++ List.replicate (rest.count false) false with
        | nil => simp [List.orderedInsert]
        | cons y ys =>
          rw [List.orderedInsert, if_pos (by simp)]
      rw [this]
      simp [List.count_cons, List.replicate_succ]

theorem isin_all_true (l tp : List ℕ) (h : ∀ x ∈ l, x ∈ tp) :
    isin l tp = List.replicate l.length true := by
  induction l with
  | nil => simp [isin]
  | cons x xs ih =>
    rw [isin, List.map_cons, List.length_cons, List.replicate_succ]
    have hx : decide (x ∈ tp) = true := decide_eq_true (h x (List.mem_cons_self x xs))
    rw [hx]
    congr 1
    exact ih fun y hy => h y (List.mem_cons_of_mem x hy)

theorem isin_all_false (l tp : List ℕ) (h : ∀ x ∈ l, x ∉ tp) :
    isin l tp = List.replicate l.length false := by
  induction l with
  | nil => simp [isin]
  | cons x xs ih =>
    rw [isin, List.map_cons, List.length_cons, List.replicate_succ]
    have hx : decide (x ∈ tp) = false := decide_eq_false (h x (List.mem_cons_self x xs))
    rw [hx]
    congr 1
    exact ih fun y hy => h y (List.mem_cons_of_mem x hy)

theorem measure_ndcg_method1_eq (recList testPos : List ℕ) :
    measure_ndcg recList testPos 1 =
      if dcg_method1 (sortDescBool (isin recList testPos)) = 0 then 0
      else dcg_method1 (isin recList testPos) /
        dcg_method1 (sortDescBool (isin recList testPos)) := by
  simp [measure_ndcg]

/-- C2: for every recommendation list and non-empty test-positive set, the
"method 1" NDCG lies in [0, 1]; and whenever the recommendation list has no
duplicates and its first `|test_pos|` entries are exactly the test-positive
items in some order, the NDCG equals 1. -/
theorem ndcg_method1_bounds (recList testPos : List ℕ) (hT : testPos ≠ []) :
    (0 ≤ measure_ndcg recList testPos 1 ∧ measure_ndcg recList testPos 1 ≤ 1) ∧
    (recList.Nodup → (recList.take testPos.length).Perm testPos →
      measure_ndcg recList testPos 1 = 1) := by
  have hidcg : dcg_method1 (sortDescBool (isin recList testPos)) =
      idealSum 0 ((isin recList testPos).count true) := by
    rw [dcg_method1_eq_hitSum, sortDescBool_eq, hitSum_append, hitSum_replicate_true,
      hitSum_replicate_false]
    ring
  constructor
  · rw [measure_ndcg_method1_eq]
    by_cases h0 : dcg_method1 (sortDescBool (isin recList testPos)) = 0
    · rw [if_pos h0]
      norm_num
    · rw [if_neg h0]
      have hcnt : 0 < (isin recList testPos).count true := by
        by_contra hc
        apply h0
        rw [hidcg]
        have : (isin recList testPos).count true = 0 := by omega
        rw [this]
        simp [idealSum]
      have hpos : 0 < dcg_method1 (sortDescBool (isin recList testPos)) := by
        rw [hidcg]; exact idealSum_pos 0 hcnt
      have hle : dcg_method1 (isin recList testPos) ≤
          dcg_method1 (sortDescBool (isin recList testPos)) := by
        rw [hidcg, dcg_method1_eq_hitSum]
        exact hitSum_le_idealSum _ 0
      have hnn : 0 ≤ dcg_method1 (isin recList testPos) := by
        rw [dcg_method1_eq_hitSum]
        exact hitSum_nonneg _ 0
      exact ⟨div_nonneg hnn hpos.le, (div_le_one hpos).mpr hle⟩
  · intro hN hP
    set t := testPos.length with ht
    have htpos : 0 < t := List.length_pos.mpr hT
    have htlen : t ≤ recList.length := by
      have h1 := hP.length_eq
      rw [List.length_take] at h1
      omega
    have hsplit : recList = recList.take t ++ recList.drop t :=
      (List.take_append_drop t recList).symm
    have hdisj : List.Disjoint (recList.take t) (recList.drop t) := by
      have h := hsplit ▸ hN
      exact List.disjoint_of_nodup_append h
    have htake : ∀ x ∈ recList.take t, x ∈ testPos := fun x hx => hP.mem_iff.mp hx
    have hdrop : ∀ x ∈ recList.drop t, x ∉ testPos := by
      intro x hx hmem
      exact hdisj (hP.symm.mem_iff.mp hmem) hx
    have hlentake : (recList.take t).length = t := by
      rw [List.length_take]; omega
    have hr : isin recList testPos =
        List.replicate t true ++ List.replicate (recList.drop t).length false := by
      conv_lhs => rw [hsplit]
      rw [isin, List.map_append, ← isin, ← isin, isin_all_true _ _ htake,
        isin_all_false _ _ hdrop, hlentake]
    have hcount : (isin recList testPos).count true = t := by
      rw [hr, List.count_append]
      simp [List.count_replicate]
    have hdcg : dcg_method1 (isin recList testPos) = idealSum 0 t := by
      rw [dcg_method1_eq_hitSum, hr, hitSum_append, hitSum_replicate_true,
        hitSum_replicate_false]
      ring
    have hpos : 0 < idealSum 0 t := idealSum_pos 0 htpos
    rw [measure_ndcg_method1_eq, hidcg, hcount, if_neg (ne_of_gt hpos), hdcg]
    exact div_self (ne_of_gt hpos)

theorem ndcg_method1_bounds_witness :
    (([1] : List ℕ) ≠ []) ∧ ([1, 2, 3] : List ℕ).Nodup ∧
    (([1, 2, 3] : List ℕ).take 1).Perm [1] ∧
    (0 ≤ measure_ndcg [1, 2, 3] [1] 1 ∧ measure_ndcg [1, 2, 3] [1] 1 ≤ 1) ∧
    measure_ndcg [1, 2, 3] [1] 1 = 1 :=
  ⟨by decide, by decide, by decide,
    (ndcg_method1_bounds [1, 2, 3] [1] (by decide)).1,
    (ndcg_method1_bounds [1, 2, 3] [1] (by decide)).2 (by decide) (by decide)⟩

/-! ### Divergence-flag facts (claims C1, C6, C8 machinery) -/

theorem fit_offline_loop_flag (pred : ℕ → List NpFloat) :
    ∀ L : List ℕ, (fit_offline_loop pred L).1 = true ↔ ∃ i ∈ L, isnan_any (pred i) = true
  | [] => by simp [fit_offline_loop]
  | i :: rest => by
    by_cases h : isnan_any (pred i) = true
    · rw [fit_offline_loop, if_pos h]
      exact ⟨fun _ => ⟨i, List.mem_cons_self i rest, h⟩, fun _ => rfl⟩
    · rw [fit_offline_loop, if_neg (by simp [h])]
      rw [Bool.not_eq_true] at h
      constructor
      · intro hf
        obtain ⟨j, hj, hjn⟩ := (fit_offline_loop_flag pred rest).mp hf
        exact ⟨j, List.mem_cons_of_mem i hj, hjn⟩
      · intro ⟨j, hj, hjn⟩
        rcases List.mem_cons.mp hj with rfl | hj'
        · rw [h] at hjn; exact absurd hjn (by simp)
        · exact (fit_offline_loop_flag pred rest).mpr ⟨j, hj', hjn⟩

theorem fit_offline_loop_break (pred : ℕ → List NpFloat) (i0 : ℕ)
    (hnan : isnan_any (pred i0) = true) :
    ∀ L1 L2, (∀ j ∈ L1, isnan_any (pred j) = false) →
      fit_offline_loop pred (L1 ++ i0 :: L2) = (true, L1.length + 1)
  | [], L2, _ => by simp [fit_offline_loop, hnan]
  | j :: L1, L2, h => by
    have hj : isnan_any (pred j) = false := h j (List.mem_cons_self j L1)
    have ih := fit_offline_loop_break pred i0 hnan L1 L2
      (fun x hx => h x (List.mem_cons_of_mem j hx))
    simp [fit_offline_loop, hj, ih]

theorem train_pretrain_loop_break (epochPred : ℕ → ℕ → List NpFloat) (m e0 : ℕ)
    (hflag : (fit_offline (epochPred e0) m).1 = true) :
    ∀ L1 L2, (∀ e ∈ L1, (fit_offline (epochPred e) m).1 = false) →
      train_pretrain_loop epochPred m (L1 ++ e0 :: L2) = L1.length + 1
  | [], L2, _ => by simp [train_pretrain_loop, hflag]
  | e :: L1, L2, h => by
    have he : (fit_offline (epochPred e) m).1 = false := h e (List.mem_cons_self e L1)
    have ih := train_pretrain_loop_break epochPred m e0 hflag L1 L2
      (fun x hx => h x (List.mem_cons_of_mem e hx))
    simp [train_pretrain_loop, he, ih]
    omega

theorem range_split (i0 k : ℕ) :
    List.range (i0 + (k + 1)) =
      List.range i0 ++ i0 :: (List.range k).map (fun t => i0 + (t + 1)) := by
  rw [List.range_add, List.range_succ_eq_map]
  congr 1
  simp [List.map_map, Function.comp_def]

/-- C6 counterexample: the claim says any non-finite prediction entry (NaN or
Inf) signals the divergence flag, but the code tests `np.isnan` only, so a
prediction equal to `+Inf` (non-finite) leaves the flag unset. -/
theorem divergence_flag_infinity_unflagged :
    npIsfinite NpFloat.inf = false ∧
    isnan_any [NpFloat.inf] = false ∧
    (fit_offline (fun _ => [NpFloat.inf]) 1).1 = false := by
  refine ⟨rfl, rfl, ?_⟩
  decide

/-- C6 (amended): the divergence flag is signaled, without raising, exactly
when some entry of a step's raw prediction is NaN (infinities do not trigger
it); during pre-training, the first NaN step aborts the current pass after
that step, and the first flagged pass halts the PRETRAIN epoch loop. -/
theorem divergence_flag_nan (pred : ℕ → List NpFloat) (n i0 : ℕ)
    (epochPred : ℕ → ℕ → List NpFloat) (m epochs e0 : ℕ)
    (hi : i0 < n) (hnan : isnan_any (pred i0) = true)
    (hfirst : ∀ j < i0, isnan_any (pred j) = false)
    (he : e0 < epochs) (hflag : (fit_offline (epochPred e0) m).1 = true)
    (hbefore : ∀ e < e0, (fit_offline (epochPred e) m).1 = false) :
    (∀ (q : ℕ → List NpFloat) (k : ℕ),
      (fit_offline q k).1 = true ↔ ∃ i < k, isnan_any (q i) = true) ∧
    fit_offline pred n = (true, i0 + 1) ∧
    train_pretrain_epochs epochPred m epochs = e0 + 1 := by
  refine ⟨fun q k => ?_, ?_, ?_⟩
  · rw [fit_offline, fit_offline_loop_flag]
    simp [List.mem_range]
  · have hsplit := range_split i0 (n - i0 - 1)
    have hn : i0 + (n - i0 - 1 + 1) = n := by omega
    rw [hn] at hsplit
    rw [fit_offline, hsplit,
      fit_offline_loop_break pred i0 hnan _ _ (fun j hj => hfirst j (List.mem_range.mp hj))]
    simp
  · have hsplit := range_split e0 (epochs - e0 - 1)
    have hn : e0 + (epochs - e0 - 1 + 1) = epochs := by omega
    rw [hn] at hsplit
    rw [train_pretrain_epochs, hsplit,
      train_pretrain_loop_break epochPred m e0 hflag _ _
        (fun e hee => hbefore e (List.mem_range.mp hee))]
    simp

theorem divergence_flag_nan_witness :
    1 < 3 ∧
    isnan_any ((fun i => if i = 1 then [NpFloat.nan] else [NpFloat.val 0]) 1) = true ∧
    2 < 5 ∧
    fit_offline (fun i => if i = 1 then [NpFloat.nan] else [NpFloat.val 0]) 3 = (true, 2) ∧
    train_pretrain_epochs
      (fun e _ => if e = 2 then [NpFloat.nan] else [NpFloat.val 0]) 1 5 = 3 :=
  ⟨by decide, by decide, by decide,
    (divergence_flag_nan (fun i => if i = 1 then [NpFloat.nan] else [NpFloat.val 0]) 3 1
      (fun e _ => if e = 2 then [NpFloat.nan] else [NpFloat.val 0]) 1 5 2
      (by decide) (by decide) (by decide) (by decide) (by decide) (by decide)).2.1,
    (divergence_flag_nan (fun i => if i = 1 then [NpFloat.nan] else [NpFloat.val 0]) 3 1
      (fun e _ => if e = 2 then [NpFloat.nan] else [NpFloat.val 0]) 1 5 2
      (by decide) (by decide) (by decide) (by decide) (by decide) (by decide)).2.2⟩

/-- C1 counterexample: under mode `finetune` (no numeric suffix, so the
extracted threshold is -1) snapshot 1 *is* fine-tuned for all `tepoch` passes,
yet `1 ≤ -1` is false — so fine-tuning does not happen "exactly when
`i ≤ N`" as the claim states. -/
theorem finetune_threshold_claim_false :
    fine_tune_passes "finetune" 5 1 = 5 ∧ ¬ ((1 : ℤ) ≤ extract_digits "finetune") := by
  constructor
  · decide
  · decide

/-- C1 (amended): for snapshot index `i ≥ 1` during FINE_TUNE, the scheduler
performs `tepoch` fine-tuning passes over the snapshot's examples exactly when
`i` is *greater than* the threshold `N` extracted from the mode string's
digits (default -1 when the mode has no digit, so every snapshot `i ≥ 1` is
processed). -/
theorem finetune_threshold (method : String) (tepoch snapIdx : ℕ)
    (h1 : 1 ≤ snapIdx) (h2 : 0 < tepoch) :
    (fine_tune_passes method tepoch snapIdx = tepoch ↔
      extract_digits method < (snapIdx : ℤ)) ∧
    ((∀ c ∈ method.data, ¬ c.isDigit) →
      extract_digits method = -1 ∧ fine_tune_passes method tepoch snapIdx = tepoch) := by
  have hne : snapIdx ≠ 0 := by omega
  constructor
  · unfold fine_tune_passes isFineTuned
    by_cases h : extract_digits method < (snapIdx : ℤ)
    · simp [hne, h]
    · simp [hne, h]
      omega
  · intro hnd
    have hfilter : method.data.filter Char.isDigit = [] :=
      List.filter_eq_nil_iff.mpr (fun c hc => by simpa using hnd c hc)
    have hext : extract_digits method = -1 := by
      unfold extract_digits
      rw [hfilter]
      rfl
    refine ⟨hext, ?_⟩
    unfold fine_tune_passes isFineTuned
    rw [hext]
    simp [hne]
    omega

theorem finetune_threshold_witness :
    1 ≤ 1 ∧ 0 < 3 ∧
    (fine_tune_passes "finetune" 3 1 = 3 ↔ extract_digits "finetune" < (1 : ℤ)) :=
  ⟨le_refl 1, by decide, (finetune_threshold "finetune" 3 1 (le_refl 1) (by decide)).1⟩

/-- C8: with `snap_boundaries = [100, 250, 400]` and mode `finetune`, the
dynamic fine-tuning loop skips snapshot 0, takes the fine-tuning branch for
snapshots 1 and 2 in increasing order, snapshot 2's batch collection covers
exactly the stream indices in [250, 400), and exactly the two checkpoints
`_snap1` and `_snap2` are persisted. -/
theorem finetune_scenario :
    checkpointTags [100, 250, 400] "finetune" = ["_snap1", "_snap2"] ∧
    fineTunedSnapshots [100, 250, 400] "finetune" = [1, 2] ∧
    isFineTuned "finetune" 0 = false ∧
    (∀ i : ℤ, snapshot_covers [100, 250, 400] 2 i = true ↔ 250 ≤ i ∧ i < 400) := by
  refine ⟨by decide, by decide, by decide, fun i => ?_⟩
  simp [snapshot_covers, snap_start, snap_end]

/-- C7: when a negative-sample size other than the sentinel -1 is requested
and it exceeds the number of eligible negative items (training items outside
the user's train-positive and test-positive sets), recommendation-list
generation fails with `random.sample`'s ValueError instead of clipping the
sample. -/
theorem neg_sample_overflow_fails (relevance : ℕ → ℚ) (sample : List ℕ → ℕ → List ℕ)
    (trainItemSet trainPos_u testPos_u : List ℕ) (K numNegSamples : ℤ)
    (hne : numNegSamples ≠ -1)
    (hover : ((new_item_set_of trainItemSet trainPos_u testPos_u).length : ℤ) < numNegSamples) :
    generate_recommendation_list_for_a_user relevance sample trainItemSet trainPos_u testPos_u
      K numNegSamples = .error "Sample larger than population or is negative" := by
  unfold generate_recommendation_list_for_a_user
  rw [if_pos ⟨hne, Or.inl hover⟩]

theorem neg_sample_overflow_fails_witness :
    (5 : ℤ) ≠ -1 ∧ ((new_item_set_of [1, 2, 3] [1] [2]).length : ℤ) < 5 ∧
    generate_recommendation_list_for_a_user (fun _ => 0) (fun pool k => pool.take k)
      [1, 2, 3] [1] [2] 1 5 = .error "Sample larger than population or is negative" :=
  ⟨by decide, by decide,
    neg_sample_overflow_fails (fun _ => 0) (fun pool k => pool.take k) [1, 2, 3] [1] [2] 1 5
      (by decide) (by decide)⟩

/-- C4: the parity-difference statistic for a metric and attribute dimension
is recorded exactly when the dimension has exactly two groups, equals the
first group's (averaged) value minus the second's, and is antisymmetric:
listing the two groups in the opposite order negates the reported value. -/
theorem parity_difference_binary (UA : ℕ → ℕ → String → ℝ) (G G' : List (List ℕ))
    (m : String) (k : ℕ) (g0 g1 : ℕ)
    (h : G.getD k [] = [g0, g1]) (h' : G'.getD k [] = [g1, g0]) :
    binary_unfairness G UA m k = some (UA k g0 m - UA k g1 m) ∧
    binary_unfairness G' UA m k = some (-(UA k g0 m - UA k g1 m)) ∧
    (∀ H : List (List ℕ), (H.getD k []).length ≠ 2 → binary_unfairness H UA m k = none) := by
  refine ⟨?_, ?_, fun H hH => ?_⟩
  · unfold binary_unfairness
    rw [h]
    simp
  · unfold binary_unfairness
    rw [h']
    simp
  · unfold binary_unfairness
    rw [if_neg]
    simpa using hH

/-! ### Evaluation-pass facts (claims C3, C5, C10 machinery) -/

/-- Total version of the metric dispatch: the computed value for a recognized
metric name, 0 for an unrecognized one. -/
noncomputable def metricValueD (metric : String) (recList testPos_u : List ℕ) : ℝ :=
  exceptD 0 (metricValue metric recList testPos_u)

theorem metricValue_of_known (m : String) (r tp : List ℕ) (h : m ∈ knownMetrics) :
    metricValue m r tp = .ok (metricValueD m r tp) := by
  fin_cases h <;> rfl

theorem metricValue_of_not_known (m : String) (r tp : List ℕ) (h : m ∉ knownMetrics) :
    metricValue m r tp = .error ("Undefined evaluation metric: " ++ m) := by
  simp only [knownMetrics, List.mem_cons, List.not_mem_nil, or_false, not_or] at h
  obtain ⟨h1, h2, h3, h4, h5, h6, h7, h8, h9, h10, h11, h12, h13⟩ := h
  unfold metricValue
  rw [if_neg h1, if_neg h2, if_neg h3, if_neg h4, if_neg h5, if_neg h6, if_neg h7,
    if_neg h8, if_neg h9, if_neg h10, if_neg h11, if_neg h12, if_neg h13]

/-- The pure state transformer computed by the metric loop when every metric
name is recognized. -/
noncomputable def perfFold (G : List (List ℕ)) (userAttr : ℕ → ℕ → ℕ) (trainPosLen : ℕ)
    (tp : List ℕ) (user : ℕ) (recList : List ℕ) (numUnseen : ℕ) :
    List String → ℕ → TState → TState
  | [], _, st => st
  | m :: ms, flag, st =>
    perfFold G userAttr trainPosLen tp user recList numUnseen ms (flag + 1)
      (perfUpdate G userAttr trainPosLen tp.length user numUnseen m
        (metricValueD m recList tp) flag st)

theorem measure_performance_loop_ok (G : List (List ℕ)) (userAttr : ℕ → ℕ → ℕ)
    (trainPos : ℕ → List ℕ) (testPos : ℕ → Option (List ℕ)) (user : ℕ)
    (recList : List ℕ) (numUnseen : ℕ) (tp : List ℕ) (htp : testPos user = some tp) :
    ∀ (ms : List String) (flag : ℕ) (st : TState), (∀ m ∈ ms, m ∈ knownMetrics) →
      measure_performance_loop G userAttr trainPos testPos user recList numUnseen ms flag st =
        .ok (perfFold G userAttr (trainPos user).length tp user recList numUnseen ms flag st)
  | [], flag, st, _ => rfl
  | m :: ms, flag, st, hk => by
    have hmv := metricValue_of_known m recList tp (hk m (List.mem_cons_self m ms))
    simp only [measure_performance_loop, htp, hmv, perfFold]
    exact measure_performance_loop_ok G userAttr trainPos testPos user recList numUnseen tp htp
      ms (flag + 1) _ (fun m' hm' => hk m' (List.mem_cons_of_mem m hm'))

theorem perfFold_results (G : List (List ℕ)) (userAttr : ℕ → ℕ → ℕ) (trainPosLen : ℕ)
    (tp : List ℕ) (user : ℕ) (recList : List ℕ) (numUnseen : ℕ) (m' : String) :
    ∀ (ms : List String) (flag : ℕ) (st : TState), ms.Nodup →
      (perfFold G userAttr trainPosLen tp user recList numUnseen ms flag st).results m' =
        st.results m' + (if m' ∈ ms then metricValueD m' recList tp else 0)
  | [], flag, st, _ => by simp [perfFold]
  | m :: ms, flag, st, hnd => by
    rw [perfFold, perfFold_results G userAttr trainPosLen tp user recList numUnseen m' ms
      (flag + 1) _ hnd.of_cons]
    by_cases hm : m' = m
    · subst hm
      have hnotin : m' ∉ ms := (List.nodup_cons.mp hnd).1
      simp [perfUpdate, hnotin]
    · by_cases hin : m' ∈ ms
      · simp [perfUpdate, hm, hin, List.mem_cons]
      · have : m' ∉ m :: ms := by simp [hm, hin]
        simp [perfUpdate, hm, hin, this]

theorem perfFold_numTestUsers (G : List (List ℕ)) (userAttr : ℕ → ℕ → ℕ) (trainPosLen : ℕ)
    (tp : List ℕ) (user : ℕ) (recList : List ℕ) (numUnseen : ℕ) :
    ∀ (ms : List String) (flag : ℕ) (st : TState),
      (perfFold G userAttr trainPosLen tp user recList numUnseen ms flag st).numTestUsers =
        st.numTestUsers + (if flag = 0 ∧ ms ≠ [] then 1 else 0)
  | [], flag, st => by simp [perfFold]
  | m :: ms, flag, st => by
    rw [perfFold, perfFold_numTestUsers G userAttr trainPosLen tp user recList numUnseen ms
      (flag + 1) _]
    by_cases hf : flag = 0
    · simp [perfUpdate, hf]
    · simp [perfUpdate, hf]

/-- State after processing one user of the loop of `quick_recommendation`. -/
noncomputable def userStep (G : List (List ℕ)) (userAttr : ℕ → ℕ → ℕ)
    (trainPos : ℕ → List ℕ) (testPos : ℕ → Option (List ℕ)) (metrics : List String)
    (recOf : ℕ → List ℕ × ℕ) (u : ℕ) (st : TState) : TState :=
  match testPos u with
  | some tp => perfFold G userAttr (trainPos u).length tp u (recOf u).1 (recOf u).2 metrics 0 st
  | none => st

/-- The pure state transformer computed by the user loop when every metric
name is recognized. -/
noncomputable def userFold (G : List (List ℕ)) (userAttr : ℕ → ℕ → ℕ)
    (trainPos : ℕ → List ℕ) (testPos : ℕ → Option (List ℕ)) (metrics : List String)
    (recOf : ℕ → List ℕ × ℕ) : List ℕ → TState → TState
  | [], st => st
  | u :: us, st => userFold G userAttr trainPos testPos metrics recOf us
      (userStep G userAttr trainPos testPos metrics recOf u st)

theorem quick_rec_loop_ok (G : List (List ℕ)) (userAttr : ℕ → ℕ → ℕ)
    (trainPos : ℕ → List ℕ) (testPos : ℕ → Option (List ℕ)) (metrics : List String)
    (recOf : ℕ → List ℕ × ℕ) (hk : ∀ m ∈ metrics, m ∈ knownMetrics) :
    ∀ (us : List ℕ) (st : TState),
      quick_rec_loop G userAttr trainPos testPos metrics recOf us st =
        .ok (userFold G userAttr trainPos testPos metrics recOf us st)
  | [], st => rfl
  | u :: us, st => by
    rw [quick_rec_loop, userFold]
    by_cases hs : (testPos u).isSome
    · obtain ⟨tp, htp⟩ := Option.isSome_iff_exists.mp hs
      rw [if_pos hs, measure_performance_for_a_user,
        measure_performance_loop_ok G userAttr trainPos testPos u (recOf u).1 (recOf u).2 tp htp
          metrics 0 st hk]
      have hstep : userStep G userAttr trainPos testPos metrics recOf u st =
          perfFold G userAttr (trainPos u).length tp u (recOf u).1 (recOf u).2 metrics 0 st := by
        rw [userStep, htp]
      rw [← hstep]
      exact quick_rec_loop_ok G userAttr trainPos testPos metrics recOf hk us _
    · rw [if_neg hs]
      have hstep : userStep G userAttr trainPos testPos metrics recOf u st = st := by
        rw [userStep, Option.not_isSome_iff_eq_none.mp hs]
      rw [hstep]
      exact quick_rec_loop_ok G userAttr trainPos testPos metrics recOf hk us st

theorem userFold_results (G : List (List ℕ)) (userAttr : ℕ → ℕ → ℕ)
    (trainPos : ℕ → List ℕ) (testPos : ℕ → Option (List ℕ)) (metrics : List String)
    (recOf : ℕ → List ℕ × ℕ) (m : String) (hnd : metrics.Nodup) (hm : m ∈ metrics) :
    ∀ (us : List ℕ) (st : TState),
      (userFold G userAttr trainPos testPos metrics recOf us st).results m =
        st.results m + ((us.filter (fun u => (testPos u).isSome)).map
          (fun u => metricValueD m (recOf u).1 ((testPos u).getD []))).sum
  | [], st => by simp [userFold]
  | u :: us, st => by
    rw [userFold, userFold_results G userAttr trainPos testPos metrics recOf m hnd hm us _]
    by_cases hs : (testPos u).isSome
    · obtain ⟨tp, htp⟩ := Option.isSome_iff_exists.mp hs
      have hstep : (userStep G userAttr trainPos testPos metrics recOf u st).results m =
          st.results m + metricValueD m (recOf u).1 tp := by
        rw [userStep, htp, perfFold_results _ _ _ _ _ _ _ _ metrics 0 st hnd, if_pos hm]
      rw [hstep, List.filter_cons_of_pos (by simpa using hs), List.map_cons, List.sum_cons, htp]
      simp [Option.getD]
      ring
    · have hstep : userStep G userAttr trainPos testPos metrics recOf u st = st := by
        rw [userStep, Option.not_isSome_iff_eq_none.mp hs]
      rw [hstep, List.filter_cons_of_neg (by simpa using hs)]

theorem userFold_numTestUsers (G : List (List ℕ)) (userAttr : ℕ → ℕ → ℕ)
    (trainPos : ℕ → List ℕ) (testPos : ℕ → Option (List ℕ)) (metrics : List String)
    (recOf : ℕ → List ℕ × ℕ) (hne : metrics ≠ []) :
    ∀ (us : List ℕ) (st : TState),
      (userFold G userAttr trainPos testPos metrics recOf us st).numTestUsers =
        st.numTestUsers + (us.filter (fun u => (testPos u).isSome)).length
  | [], st => by simp [userFold]
  | u :: us, st => by
    rw [userFold, userFold_numTestUsers G userAttr trainPos testPos metrics recOf hne us _]
    by_cases hs : (testPos u).isSome
    · obtain ⟨tp, htp⟩ := Option.isSome_iff_exists.mp hs
      have hstep : (userStep G userAttr trainPos testPos metrics recOf u st).numTestUsers =
          st.numTestUsers + 1 := by
        rw [userStep, htp, perfFold_numTestUsers _ _ _ _ _ _ _ metrics 0 st, if_pos ⟨rfl, hne⟩]
      rw [hstep, List.filter_cons_of_pos (by simpa using hs), List.length_cons]
      omega
    · have hstep : userStep G userAttr trainPos testPos metrics recOf u st = st := by
        rw [userStep, Option.not_isSome_iff_eq_none.mp hs]
      rw [hstep, List.filter_cons_of_neg (by simpa using hs)]

/-- C3: after one evaluation pass in which every metric name is recognized and
at least one user is eligible (present in the training user set and the
test-positive map), the evaluated-user count equals the number of eligible
users, finalization succeeds, and the reported overall value of each metric is
exactly the unweighted arithmetic mean of that metric's per-user values over
the eligible users (exact equality in the real-number model, hence within
any tolerance). -/
theorem overall_metric_unweighted_mean (G : List (List ℕ)) (userAttr : ℕ → ℕ → ℕ)
    (trainPos : ℕ → List ℕ) (testPos : ℕ → Option (List ℕ)) (metrics : List String)
    (recOf : ℕ → List ℕ × ℕ) (trainUserSet : List ℕ) (m : String) (stF : TState)
    (hnd : metrics.Nodup) (hm : m ∈ metrics)
    (hknown : ∀ m' ∈ metrics, m' ∈ knownMetrics)
    (hrun : quick_rec_loop G userAttr trainPos testPos metrics recOf trainUserSet
      init_results = .ok stF)
    (hne : trainUserSet.filter (fun u => (testPos u).isSome) ≠ []) :
    stF.numTestUsers = (trainUserSet.filter (fun u => (testPos u).isSome)).length ∧
    (average_user metrics stF.results stF.numTestUsers).isSome = true ∧
    avgAt (average_user metrics stF.results stF.numTestUsers) m =
      ((trainUserSet.filter (fun u => (testPos u).isSome)).map
        (fun u => metricValueD m (recOf u).1 ((testPos u).getD []))).sum /
        (((trainUserSet.filter (fun u => (testPos u).isSome)).length : ℕ) : ℝ) := by
  have hmetne : metrics ≠ [] := fun hc => by simp [hc] at hm
  have hF : stF = userFold G userAttr trainPos testPos metrics recOf trainUserSet
      init_results := by
    have h := quick_rec_loop_ok G userAttr trainPos testPos metrics recOf hknown trainUserSet
      init_results
    rw [h] at hrun
    exact (Except.ok.inj hrun).symm
  have hcount : stF.numTestUsers =
      (trainUserSet.filter (fun u => (testPos u).isSome)).length := by
    rw [hF, userFold_numTestUsers G userAttr trainPos testPos metrics recOf hmetne]
    simp [init_results]
  have hres : stF.results m = ((trainUserSet.filter (fun u => (testPos u).isSome)).map
      (fun u => metricValueD m (recOf u).1 ((testPos u).getD []))).sum := by
    rw [hF, userFold_results G userAttr trainPos testPos metrics recOf m hnd hm]
    simp [init_results]
  have hnum : stF.numTestUsers ≠ 0 := by
    rw [hcount]
    simpa [List.length_eq_zero] using hne
  have havg : average_user metrics stF.results stF.numTestUsers =
      some (fun m' => if m' ∈ metrics then stF.results m' / (stF.numTestUsers : ℝ)
        else stF.results m') := by
    rw [average_user, if_neg hmetne, if_neg hnum]
  refine ⟨hcount, by rw [havg]; rfl, ?_⟩
  rw [havg, avgAt, if_pos hm, hres, hcount]

theorem overall_metric_unweighted_mean_witness :
    (["hit"] : List String).Nodup ∧ "hit" ∈ (["hit"] : List String) ∧
    (([0] : List ℕ).filter
      (fun u => ((fun v => if v = 0 then some [1] else none) u).isSome) ≠ []) ∧
    avgAt (average_user ["hit"]
      (userFold [[0, 1]] (fun _ _ => 0) (fun _ => []) (fun v => if v = 0 then some [1] else none)
        ["hit"] (fun _ => ([1], 0)) [0] init_results).results
      (userFold [[0, 1]] (fun _ _ => 0) (fun _ => []) (fun v => if v = 0 then some [1] else none)
        ["hit"] (fun _ => ([1], 0)) [0] init_results).numTestUsers) "hit" =
      ((([0] : List ℕ).filter
        (fun u => ((fun v => if v = 0 then some [1] else none) u).isSome)).map
        (fun u => metricValueD "hit" ((fun _ => (([1] : List ℕ), 0)) u).1
          (((fun v => if v = 0 then some [1] else none) u).getD []))).sum /
        (((([0] : List ℕ).filter
          (fun u => ((fun v => if v = 0 then some [1] else none) u).isSome)).length : ℕ) : ℝ) :=
  ⟨by decide, by decide, by decide,
    (overall_metric_unweighted_mean [[0, 1]] (fun _ _ => 0) (fun _ => [])
      (fun v => if v = 0 then some [1] else none) ["hit"] (fun _ => ([1], 0)) [0] "hit"
      (userFold [[0, 1]] (fun _ _ => 0) (fun _ => []) (fun v => if v = 0 then some [1] else none)
        ["hit"] (fun _ => ([1], 0)) [0] init_results)
      (by decide) (by decide) (by decide)
      (quick_rec_loop_ok [[0, 1]] (fun _ _ => 0) (fun _ => [])
        (fun v => if v = 0 then some [1] else none) ["hit"] (fun _ => ([1], 0))
        (by decide) [0] init_results)
      (by decide)).2.2⟩

/-- C10: if an evaluation pass finds no eligible user, the pass returns the
zero-initialized accumulators, `average_user` hits a division by the zero
user count (an error), while every per-group average from
`average_user_attr` is defined as 0 — the no-divide-by-zero guarantee holds
for group accumulators only. -/
theorem zero_eligible_users_division (G : List (List ℕ)) (userAttr : ℕ → ℕ → ℕ)
    (trainPos : ℕ → List ℕ) (testPos : ℕ → Option (List ℕ)) (metrics : List String)
    (recOf : ℕ → List ℕ × ℕ) (trainUserSet : List ℕ)
    (hmet : metrics ≠ [])
    (hempty : ∀ u ∈ trainUserSet, testPos u = none) :
    quick_rec_loop G userAttr trainPos testPos metrics recOf trainUserSet init_results =
      .ok init_results ∧
    average_user metrics init_results.results init_results.numTestUsers = none ∧
    (∀ k a m', average_user_attr G metrics init_results.resultsUserAttr
      init_results.numUsersPerGroup k a m' = 0) := by
  refine ⟨?_, ?_, ?_⟩
  · have : ∀ (us : List ℕ), (∀ u ∈ us, testPos u = none) → ∀ st,
        quick_rec_loop G userAttr trainPos testPos metrics recOf us st = .ok st := by
      intro us
      induction us with
      | nil => intro _ st; rfl
      | cons u us ih =>
        intro h st
        rw [quick_rec_loop, if_neg (by simp [h u (List.mem_cons_self u us)])]
        exact ih (fun x hx => h x (List.mem_cons_of_mem u hx)) st
    exact this trainUserSet hempty init_results
  · rw [average_user, if_neg hmet]
    simp [init_results]
  · intro k a m'
    rw [average_user_attr]
    by_cases hc : k < G.length ∧ a ∈ G.getD k [] ∧ m' ∈ metrics
    · rw [if_pos hc]
      simp [init_results]
    · rw [if_neg hc]
      rfl

theorem zero_eligible_users_division_witness :
    ((["recall"] : List String) ≠ []) ∧
    (∀ u ∈ ([5] : List ℕ), (fun _ : ℕ => (none : Option (List ℕ))) u = none) ∧
    average_user ["recall"] init_results.results init_results.numTestUsers = none :=
  ⟨by decide, by decide,
    (zero_eligible_users_division [[0, 1]] (fun _ _ => 0) (fun _ => [])
      (fun _ => none) ["recall"] (fun _ => ([], 0)) [5] (by decide) (by decide)).2.1⟩

/-- Projection reading the evaluated-user count out of an evaluation-pass
result, from the error payload when the pass raised. -/
noncomputable def errStateNumUsers (e : Except (String × TState) TState) : ℕ :=
  match e with
  | .error (_, st) => st.numTestUsers
  | .ok st => st.numTestUsers

/-- C5 counterexample: with metric list `["recall", "bogus"]` and one eligible
user, the pass does fail, but only while that user is being scored: at the
moment of the raise the user count is already 1 (and `recall` was already
accumulated), so the configuration error is not reported "before any user is
scored". -/
theorem bogus_metric_claim_false :
    exceptIsError (quick_rec_loop [[0, 1]] (fun _ _ => 0) (fun _ => [])
      (fun v => if v = 0 then some [1] else none) ["recall", "bogus"] (fun _ => ([1], 0)) [0]
      init_results) = true ∧
    errStateNumUsers (quick_rec_loop [[0, 1]] (fun _ _ => 0) (fun _ => [])
      (fun v => if v = 0 then some [1] else none) ["recall", "bogus"] (fun _ => ([1], 0)) [0]
      init_results) = 1 := by
  constructor
  · rfl
  · rfl

/-- C5 (amended): evaluating with a metric name outside the supported
enumeration raises the fatal `ValueError` as soon as the first eligible user's
metrics are computed — the metric is never silently skipped when an eligible
user exists — but validation is lazy: the error surfaces during the scoring
of that user (metrics earlier in the list having already been accumulated),
not before the user loop starts, and a pass with no eligible user raises no
such error. -/
theorem unknown_metric_fails_at_first_user (G : List (List ℕ)) (userAttr : ℕ → ℕ → ℕ)
    (trainPos : ℕ → List ℕ) (testPos : ℕ → Option (List ℕ)) (metrics : List String)
    (recOf : ℕ → List ℕ × ℕ) (mb : String) (u : ℕ) (tp : List ℕ)
    (hmb : mb ∈ metrics) (hunk : mb ∉ knownMetrics)
    (htp : testPos u = some tp) :
    ∀ (us : List ℕ) (st : TState), u ∈ us →
      exceptIsError (quick_rec_loop G userAttr trainPos testPos metrics recOf us st) = true := by
  have hloop : ∀ (user : ℕ) (tpu : List ℕ), testPos user = some tpu →
      ∀ (ms : List String) (flag : ℕ) (st : TState), mb ∈ ms →
      exceptIsError (measure_performance_loop G userAttr trainPos testPos user
        (recOf user).1 (recOf user).2 ms flag st) = true := by
    intro user tpu htpu ms
    induction ms with
    | nil => intro flag st h; exact absurd h (List.not_mem_nil mb)
    | cons m ms ih =>
      intro flag st h
      simp only [measure_performance_loop, htpu]
      cases hmv : metricValue m (recOf user).1 tpu with
      | error e =>
        simp only [hmv]
        rfl
      | ok v =>
        simp only [hmv]
        have hne : mb ≠ m := by
          rintro rfl
          rw [metricValue_of_not_known mb (recOf user).1 tpu hunk] at hmv
          exact absurd hmv (by simp)
        exact ih (flag + 1) _ (by
          rcases List.mem_cons.mp h with h' | h'
          · exact absurd h' hne
          · exact h')
  intro us
  induction us with
  | nil => intro st h; exact absurd h (List.not_mem_nil u)
  | cons u0 us ih =>
    intro st hu
    rw [quick_rec_loop]
    by_cases hs : (testPos u0).isSome
    · obtain ⟨tp0, htp0⟩ := Option.isSome_iff_exists.mp hs
      rw [if_pos hs]
      have herr := hloop u0 tp0 htp0 metrics 0 st hmb
      cases hm : measure_performance_for_a_user G userAttr trainPos testPos u0 (recOf u0).1
          (recOf u0).2 metrics st with
      | error e => rfl
      | ok st' =>
        unfold measure_performance_for_a_user at hm
        rw [hm] at herr
        exact absurd herr (by simp [exceptIsError])
    · rw [if_neg hs]
      have hne : u ≠ u0 := by
        rintro rfl
        rw [htp] at hs
        exact hs rfl
      refine ih _ ?_
      rcases List.mem_cons.mp hu with h' | h'
      · exact absurd h' hne
      · exact h'

theorem unknown_metric_fails_at_first_user_witness :
    ("bogus" ∈ (["recall", "bogus"] : List String)) ∧
    ("bogus" ∉ knownMetrics) ∧ (0 ∈ ([0] : List ℕ)) ∧
    exceptIsError (quick_rec_loop [[0, 1]] (fun _ _ => 0) (fun _ => [])
      (fun v => if v = 0 then some [1] else none) ["recall", "bogus"] (fun _ => ([1], 0)) [0]
      init_results) = true :=
  ⟨by decide, by decide, by decide,
    unknown_metric_fails_at_first_user [[0, 1]] (fun _ _ => 0) (fun _ => [])
      (fun v => if v = 0 then some [1] else none) ["recall", "bogus"] (fun _ => ([1], 0))
      "bogus" 0 [1] (by decide) (by decide) (by decide) [0] init_results (by decide)⟩

theorem parity_difference_binary_witness :
    (([[0, 1]] : List (List ℕ)).getD 0 [] = [0, 1]) ∧
    binary_unfairness [[0, 1]] (fun _ a _ => (a : ℝ)) "recall" 0 =
      some (((0 : ℕ) : ℝ) - ((1 : ℕ) : ℝ)) ∧
    binary_unfairness [[1, 0]] (fun _ a _ => (a : ℝ)) "recall" 0 =
      some (-(((0 : ℕ) : ℝ) - ((1 : ℕ) : ℝ))) :=
  ⟨rfl,
    (parity_difference_binary (fun _ a _ => (a : ℝ)) [[0, 1]] [[1, 0]] "recall" 0 0 1 rfl rfl).1,
    (parity_difference_binary (fun _ a _ => (a : ℝ)) [[0, 1]] [[1, 0]] "recall" 0 0 1 rfl rfl).2.1⟩

end Fade
